import Mathlib

set_option maxRecDepth 4000

/-
  Verification development for the Pitch-Overlay repository.

  The numeric pipeline of the program is shallowly embedded here:
  * src/crepe.rs : argmax, mean, std, the CENTS_MAPPING table, the
    local-average-cents decoder and predict_single;
  * src/main.rs : the capture-callback frame assembly, multi-frame
    averaging, the session state touched by connect/disconnect, and the
    settings-range repair.

  Float (f32) arithmetic is idealized as exact rational arithmetic (every
  finite f32 is a rational); the two genuinely irrational operations,
  sqrt in std and 2^(cents/1200) in the cents-to-Hz map, live in ℝ.
  A non-finite float result (NaN/Inf, arising only from the division by a
  zero weight sum) is modeled as Option.none.
-/

namespace PitchOverlay

/-- crepe.rs: SAMPLES_PER_STEP, the number of samples per analysis frame. -/
def samplesPerStep : ℕ := 1024

/-- main.rs: STEPS_PER_DISPLAY, predictions combined into one display value. -/
def stepsPerDisplay : ℕ := 2

/-- main.rs: MIN_SAMPLES_PER_DISPLAY = STEPS_PER_DISPLAY * SAMPLES_PER_STEP. -/
def minSamplesPerDisplay : ℕ := stepsPerDisplay * samplesPerStep

/-- crepe.rs: the activation vector has 360 bins. -/
def activationLen : ℕ := 360

/-- crepe.rs `argmax`: `values.iter().enumerate().max_by(|(_,a),(_,b)| a.total_cmp(b))`.
Rust's `max_by` keeps the LAST element among equal maxima: the fold replaces the
current best exactly when `best ≤ new`.  Indices are enumerated left to right,
here as a left fold over `List.range n`. -/
def argmax (a : ℕ → ℚ) (n : ℕ) : Option ℕ :=
  (List.range n).foldl
    (fun best i =>
      match best with
      | none => some i
      | some j => if a j ≤ a i then some i else some j)
    none

/-- crepe.rs `mean`: sum divided by length. -/
def mean (l : List ℚ) : ℚ := l.sum / (l.length : ℚ)

/-- crepe.rs `std`, the population variance part:
`Σ (mean - value)^2 / len` (written with the source's `diff * diff`). -/
def variance (l : List ℚ) : ℚ :=
  (l.map (fun x => (mean l - x) * (mean l - x))).sum / (l.length : ℚ)

/-- crepe.rs `std`: square root of the population variance. -/
noncomputable def std (l : List ℚ) : ℝ := Real.sqrt ((variance l : ℚ) : ℝ)

/-- crepe.rs `CENTS_MAPPING`: bin i maps to `i * 20.0 + 1997.3794084376191` cents. -/
def centsMapping (i : ℕ) : ℚ := (i : ℚ) * 20 + 1997.3794084376191

/-- crepe.rs `to_local_average_cents`: `start = center.saturating_sub(4)`
(ℕ subtraction saturates exactly like `saturating_sub`). -/
def windowStart (c : ℕ) : ℕ := c - 4

/-- crepe.rs `to_local_average_cents`: `end = (center + 5).min(activation.len())`. -/
def windowEnd (c : ℕ) : ℕ := min (c + 5) 360

/-- crepe.rs `to_local_average_cents`:
`product_sum = Σ_{i ∈ [start, end)} activation[i] * CENTS_MAPPING[i]`. -/
def productSum (a : ℕ → ℚ) (c : ℕ) : ℚ :=
  ∑ i ∈ Finset.Ico (windowStart c) (windowEnd c), a i * centsMapping i

/-- crepe.rs `to_local_average_cents`: `weight_sum = Σ activation[i]` over all 360 bins. -/
def weightSum (a : ℕ → ℚ) : ℚ := ∑ i ∈ Finset.range 360, a i

/-- crepe.rs `to_local_average_cents`: `product_sum / weight_sum` around the argmax.
The f32 division by a zero `weight_sum` produces a non-finite value (NaN for the
reachable all-zero case), modeled as `none`; `argmax` on the non-empty 360-bin
array never returns `none`, mirroring the successful `unwrap`. -/
def toLocalAverageCents (a : ℕ → ℚ) : Option ℚ :=
  match argmax a 360 with
  | none => none
  | some c => if weightSum a = 0 then none else some (productSum a c / weightSum a)

/-- crepe.rs `predict_single`: `confidence = activation.into_iter().reduce(f32::max)`,
a left fold of max seeded with the first bin. -/
def maxActivation (a : ℕ → ℚ) : ℚ :=
  ((List.range 360).map a).foldl max (a 0)

/-- crepe.rs `predict_single`: `frequency = 10.0 * 2.0f32.powf(cents / 1200.0)`. -/
noncomputable def centsToHz (c : ℚ) : ℝ := 10 * (2 : ℝ) ^ ((c : ℝ) / 1200)

/-- crepe.rs `Prediction`: frequency (none when not finite) and confidence. -/
structure Prediction where
  frequency : Option ℝ
  confidence : ℚ

/-- crepe.rs `predict_single`, the decoding part: activation ↦ Prediction. -/
noncomputable def decodeActivation (a : ℕ → ℚ) : Prediction :=
  ⟨(toLocalAverageCents a).map centsToHz, maxActivation a⟩

/-! ### main.rs: settings, aggregation, frame assembly, session state -/

/-- main.rs `Settings`: the persisted configuration (colors omitted—they play no
role in the pipeline).  Ranges are u32 pairs, the threshold an f32. -/
structure Settings where
  displayRange : ℕ × ℕ
  targetRange : ℕ × ℕ
  confidenceThreshold : ℚ
deriving DecidableEq

/-- main.rs `Settings::default()`: (50,500), (185,300), threshold 0.5. -/
def defaultSettings : Settings := ⟨(50, 500), (185, 300), 1 / 2⟩

/-- A per-frame prediction as consumed by the callback's aggregation:
f32 values idealized as ℚ, a NaN frequency as `none`. -/
structure PredQ where
  frequency : Option ℚ
  confidence : ℚ
deriving DecidableEq

/-- main.rs callback filter:
`confidence >= threshold && frequency >= display_range.0 && frequency <= display_range.1`.
Every comparison against a NaN frequency is false, so `none` is rejected. -/
def acceptPrediction (s : Settings) (p : PredQ) : Bool :=
  match p.frequency with
  | none => false
  | some f =>
      decide (s.confidenceThreshold ≤ p.confidence) &&
      decide ((s.displayRange.1 : ℚ) ≤ f) && decide (f ≤ (s.displayRange.2 : ℚ))

/-- main.rs callback: the frequencies surviving the filter
(`.filter(..).map(|p| p.frequency).collect()`). -/
def survivingFrequencies (s : Settings) (preds : List PredQ) : List ℚ :=
  (preds.filter (fun p => acceptPrediction s p)).filterMap (fun p => p.frequency)

/-- main.rs callback: `average_pitch`, NaN (`none`) when nothing survives,
else the arithmetic mean of the surviving frequencies. -/
def averagePitch (s : Settings) (preds : List PredQ) : Option ℚ :=
  let fs := survivingFrequencies s preds
  if fs = [] then none else some (fs.sum / (fs.length : ℚ))

/-- main.rs callback, the frame-assembly step: extend the residual buffer with
the incoming chunk; with fewer than MIN_SAMPLES_PER_DISPLAY samples nothing is
yielded and the buffer is kept; otherwise the most recent
MIN_SAMPLES_PER_DISPLAY samples are yielded and the buffer is cleared. -/
def pushSamples (buf data : List ℤ) : List ℤ × Option (List ℤ) :=
  let buf2 := buf ++ data
  if buf2.length < minSamplesPerDisplay then (buf2, none)
  else ([], some (buf2.drop (buf2.length - minSamplesPerDisplay)))

/-- `chunks_exact(k)`: successive chunks of length k, remainder dropped.
Fuel-based structural recursion (the fuel `l.length` always suffices). -/
def chunksExactAux (k : ℕ) : ℕ → List ℤ → List (List ℤ)
  | 0, _ => []
  | fuel + 1, l =>
      if 0 < k ∧ k ≤ l.length then l.take k :: chunksExactAux k fuel (l.drop k)
      else []

/-- `chunks_exact(k)` over a list. -/
def chunksExact (k : ℕ) (l : List ℤ) : List (List ℤ) := chunksExactAux k l.length l

/-- main.rs `AudioState`: the session state shared with the render thread. -/
structure AudioState where
  firstAudioInstant : Option ℕ
  recentAudio : List ℤ
  lastValidFrequency : Option ℚ
  pitchPoints : List (ℕ × Option ℚ)
deriving DecidableEq

/-- main.rs: the capture callback.  The inference engine is the opaque
`predict` parameter (chunk of SAMPLES_PER_STEP samples ↦ prediction).
Timestamps are ℕ; `instant − first` saturates at 0 exactly like
`duration_since(..).unwrap_or(Duration::ZERO)`. -/
def audioCallback (predict : List ℤ → PredQ) (s : Settings) (st : AudioState)
    (instant : ℕ) (data : List ℤ) : AudioState :=
  let first := st.firstAudioInstant.getD instant
  match pushSamples st.recentAudio data with
  | (buf2, none) => { st with firstAudioInstant := some first, recentAudio := buf2 }
  | (_, some block) =>
      let preds := (chunksExact samplesPerStep block).map predict
      let avg := averagePitch s preds
      { firstAudioInstant := some first
        recentAudio := []
        lastValidFrequency :=
          match avg with
          | none => st.lastValidFrequency
          | some f => some f
        pitchPoints := st.pitchPoints ++ [(instant - first, avg)] }

/-- main.rs `PitchOverlayApp`, the parts touched by connect/disconnect. -/
structure AppState where
  hasStream : Bool
  currentDeviceIndex : Option ℕ
  audioState : AudioState
deriving DecidableEq

/-- main.rs update, the Disconnect-audio branch: drops the stream and clears
the device index; `audio_state` is not touched. -/
def disconnectAudio (app : AppState) : AppState :=
  { app with hasStream := false, currentDeviceIndex := none }

/-- main.rs update, the connect-to-device branch: selects device `i` and builds
a stream (`ok` = build_input_stream and play both succeeded; on failure both
the stream and the index are reset).  `audio_state` is not touched. -/
def connectDevice (app : AppState) (i : ℕ) (ok : Bool) : AppState :=
  if ok then { app with hasStream := true, currentDeviceIndex := some i }
  else { app with hasStream := false, currentDeviceIndex := none }

/-- main.rs update, the range repair applied after a slider change:
`if lower >= upper { *upper = *lower + 1 }` on u32 values. -/
def repairRange (r : ℕ × ℕ) : ℕ × ℕ :=
  if r.2 ≤ r.1 then (r.1, (r.1 + 1) % 2 ^ 32) else r

/-- main.rs update: one settings-window interaction.  `s` holds the post-edit
slider values; each repair runs exactly when its pair of sliders reported a
change. -/
def settingsInteraction (dch tch : Bool) (s : Settings) : Settings :=
  { s with
    displayRange := if dch then repairRange s.displayRange else s.displayRange
    targetRange := if tch then repairRange s.targetRange else s.targetRange }

/-! ### crepe.rs get_activation: the feature normalizer -/

/-- f32::MAX as an exact rational: (2 − 2⁻²³)·2¹²⁷ = 2¹²⁸ − 2¹⁰⁴. -/
def f32Max : ℚ := 2 ^ 128 - 2 ^ 104

/-- crepe.rs `get_activation`: `let clipped_std = std.clamp(1e-8, f32::MAX)`,
i.e. min(max(σ, 1e-8), f32::MAX). -/
noncomputable def clippedStd (l : List ℚ) : ℝ :=
  min (max (std l) 1e-8) ((f32Max : ℚ) : ℝ)

/-- crepe.rs `get_activation`: `audio.map(|x| x as f32)`, the i16 → float widening. -/
def audioOf (frame : List ℤ) : List ℚ := frame.map (Int.cast : ℤ → ℚ)

/-- crepe.rs `get_activation`, the normalization feeding the model:
`normalized_audio = audio.map(|x| (x - mean) / clipped_std)`. -/
noncomputable def normalizedAudio (frame : List ℤ) : List ℝ :=
  (audioOf frame).map
    (fun x : ℚ =>
      ((x : ℝ) - ((mean (audioOf frame) : ℚ) : ℝ)) / clippedStd (audioOf frame))

/-! ### Concrete inputs used by witnesses and counterexamples -/

/-- The all-zero activation vector. -/
def zeroActivation : ℕ → ℚ := fun _ => 0

/-- An activation vector with two bins tied for the maximum, at indices 0 and 5. -/
def tieActivation : ℕ → ℚ := fun i => if i = 0 then 1 else if i = 5 then 1 else 0

/-- An activation vector whose single nonzero bin sits at index 100. -/
def peakAt100 : ℕ → ℚ := fun i => if i = 100 then 1 else 0

/-- An activation vector whose single nonzero bin sits at index 0. -/
def peakAt0 : ℕ → ℚ := fun i => if i = 0 then 1 else 0

/-- An activation vector whose single nonzero bin (value 2) sits at index 7. -/
def peakAt7 : ℕ → ℚ := fun i => if i = 7 then 2 else 0

/-- A 2048-sample callback chunk: 1024 zeros then 1024 ones. -/
def dataW : List ℤ := List.replicate 1024 0 ++ List.replicate 1024 1

/-- A mock inference engine: frequency 200 on an all-zero chunk (head 0),
frequency 220 on a chunk with head 1; confidence always 1. -/
def predictW : List ℤ → PredQ := fun c => ⟨some (200 + 20 * ((c.headD 0 : ℤ) : ℚ)), 1⟩

/-- A fresh audio session state. -/
def stW : AudioState := ⟨none, [], none, []⟩

/-- An app state mid-session: stream open, clock latched at 7, residual samples buffered. -/
def preDisconnectApp : AppState := ⟨true, some 0, ⟨some 7, [1, 2, 3], none, []⟩⟩

/-- Settings with both ranges inverted, as a slider edit can momentarily produce. -/
def badSettings : Settings := ⟨(300, 200), (100, 50), 1 / 2⟩

/-! ### Facts about `argmax` -/

theorem argmax_succ (a : ℕ → ℚ) (n : ℕ) :
    argmax a (n + 1) =
      match argmax a n with
      | none => some n
      | some j => if a j ≤ a n then some n else some j := by
  unfold argmax
  rw [List.range_succ, List.foldl_append]
  rfl

/-- Complete characterization of `argmax`: on a non-empty range it returns the
index of a maximal value, and every later index holds a strictly smaller value
(last occurrence wins among ties, as with Rust's `max_by`). -/
theorem argmax_cases (a : ℕ → ℚ) (n : ℕ) :
    (n = 0 ∧ argmax a n = none) ∨
      ∃ j, argmax a n = some j ∧ j < n ∧ (∀ i, i < n → a i ≤ a j) ∧
        (∀ i, j < i → i < n → a i < a j) := by
  induction n with
  | zero => exact Or.inl ⟨rfl, rfl⟩
  | succ n ih =>
    right
    rcases ih with ⟨h0, hnone⟩ | ⟨j, hj, hjlt, hmax, hlast⟩
    · subst h0
      refine ⟨0, ?_, Nat.zero_lt_one, ?_, ?_⟩
      · rw [argmax_succ, hnone]
      · intro i hi
        interval_cases i
        exact le_refl _
      · intro i hi hi1
        omega
    · by_cases hcmp : a j ≤ a n
      · refine ⟨n, ?_, Nat.lt_succ_self n, ?_, ?_⟩
        · rw [argmax_succ, hj]
          simp [hcmp]
        · intro i hi
          rcases Nat.lt_succ_iff_lt_or_eq.mp hi with h | h
          · exact le_trans (hmax i h) hcmp
          · subst h
            exact le_refl _
        · intro i hi hi1
          omega
      · push_neg at hcmp
        refine ⟨j, ?_, Nat.lt_succ_of_lt hjlt, ?_, ?_⟩
        · rw [argmax_succ, hj]
          simp [not_le.mpr hcmp]
        · intro i hi
          rcases Nat.lt_succ_iff_lt_or_eq.mp hi with h | h
          · exact hmax i h
          · subst h
            exact le_of_lt hcmp
        · intro i hij hi
          rcases Nat.lt_succ_iff_lt_or_eq.mp hi with h | h
          · exact hlast i hij h
          · subst h
            exact hcmp

/-- The chosen index is in range. -/
theorem argmax_lt (a : ℕ → ℚ) (n c : ℕ) (hc : argmax a n = some c) : c < n := by
  rcases argmax_cases a n with ⟨h0, hnone⟩ | ⟨j, hj, hjlt, _, _⟩
  · rw [hnone] at hc
    exact absurd hc (by simp)
  · rw [hj] at hc
    injection hc with h
    omega

/-- If `k` holds the unique strict maximum below `n`, `argmax` picks it. -/
theorem argmax_eq_of_unique (a : ℕ → ℚ) (n k : ℕ) (hk : k < n)
    (huniq : ∀ i, i < n → i ≠ k → a i < a k) : argmax a n = some k := by
  rcases argmax_cases a n with ⟨h0, _⟩ | ⟨j, hj, hjlt, hmax, _⟩
  · omega
  · rcases eq_or_ne j k with rfl | hne
    · exact hj
    · have h1 := hmax k hk
      have h2 := huniq j hjlt hne
      exact absurd h1 (not_le.mpr h2)

/-- If `k` is maximal and every later index is strictly smaller, `argmax`
returns `k` (the last occurrence of the maximum). -/
theorem argmax_eq_of_last (a : ℕ → ℚ) (n k : ℕ) (hk : k < n)
    (hmaxk : ∀ i, i < n → a i ≤ a k) (hafter : ∀ i, k < i → i < n → a i < a k) :
    argmax a n = some k := by
  rcases argmax_cases a n with ⟨h0, _⟩ | ⟨j, hj, hjlt, hmax, hlast⟩
  · omega
  · rcases lt_trichotomy j k with h | h | h
    · have h1 := hlast k h hk
      have h2 := hmaxk j hjlt
      exact absurd h2 (not_le.mpr h1)
    · rw [h] at hj
      exact hj
    · have h1 := hafter j h hjlt
      have h2 := hmax k hk
      exact absurd h2 (not_le.mpr h1)

/-- A left fold of `max` stays at its seed when no element exceeds it. -/
theorem foldl_max_of_le (l : List ℚ) : ∀ x, (∀ y ∈ l, y ≤ x) → l.foldl max x = x := by
  induction l with
  | nil => intro x _; rfl
  | cons y l ih =>
      intro x h
      rw [List.foldl_cons, max_eq_left (h y (List.mem_cons_self y l))]
      exact ih x (fun z hz => h z (List.mem_cons_of_mem y hz))

/-- On the all-zero vector every bin ties, so argmax picks the last bin, 359. -/
theorem argmax_zeroActivation : argmax zeroActivation 360 = some 359 := by
  apply argmax_eq_of_last _ _ _ (by norm_num)
  · intro i _
    exact le_refl _
  · intro i hi hi'
    omega

/-- The tied vector (maxima at 0 and 5) decodes to center 5, the last tie. -/
theorem argmax_tieActivation : argmax tieActivation 360 = some 5 := by
  apply argmax_eq_of_last _ _ _ (by norm_num)
  · intro i _
    unfold tieActivation
    by_cases h0 : i = 0
    · simp [h0]
    · by_cases h5 : i = 5 <;> simp [h0, h5]
  · intro i hi _
    have h0 : i ≠ 0 := by omega
    have h5 : i ≠ 5 := by omega
    unfold tieActivation
    simp [h0, h5]

/-- Total activation mass of the tied vector: the two unit bins. -/
theorem weightSum_tieActivation : weightSum tieActivation = 2 := by
  unfold weightSum
  have hdec : ∀ i ∈ Finset.range 360,
      tieActivation i = (if i = 0 then (1 : ℚ) else 0) + (if i = 5 then 1 else 0) := by
    intro i _
    unfold tieActivation
    by_cases h0 : i = 0
    · subst h0
      norm_num
    · by_cases h5 : i = 5
      · subst h5
        norm_num
      · simp [h0, h5]
  rw [Finset.sum_congr rfl hdec, Finset.sum_add_distrib,
    Finset.sum_ite_eq' (Finset.range 360) 0 (fun _ => (1 : ℚ)),
    Finset.sum_ite_eq' (Finset.range 360) 5 (fun _ => (1 : ℚ))]
  norm_num

/-- Windowed product mass of the tied vector around center 5: bin 0 lies
outside the window [1, 10), so only bin 5 contributes. -/
theorem productSum_tieActivation : productSum tieActivation 5 = centsMapping 5 := by
  unfold productSum windowStart windowEnd
  have hdec : ∀ i ∈ Finset.Ico (5 - 4) (min (5 + 5) 360),
      tieActivation i * centsMapping i = if i = 5 then centsMapping 5 else 0 := by
    intro i hi
    rw [Finset.mem_Ico] at hi
    have h0 : i ≠ 0 := by omega
    unfold tieActivation
    rw [if_neg h0]
    by_cases h5 : i = 5
    · subst h5
      rw [if_pos rfl, if_pos rfl, one_mul]
    · rw [if_neg h5, if_neg h5, zero_mul]
  rw [Finset.sum_congr rfl hdec,
    Finset.sum_ite_eq' (Finset.Ico (5 - 4) (min (5 + 5) 360)) 5 (fun _ => centsMapping 5)]
  simp [Finset.mem_Ico]

/-- A single-peak vector at bin 0 decodes to center 0. -/
theorem argmax_peakAt0 : argmax peakAt0 360 = some 0 := by
  apply argmax_eq_of_unique _ _ _ (by norm_num)
  intro i _ hne
  unfold peakAt0
  rw [if_neg hne, if_pos rfl]
  norm_num

/-- A single-peak vector at bin 100 decodes to center 100. -/
theorem argmax_peakAt100 : argmax peakAt100 360 = some 100 := by
  apply argmax_eq_of_unique _ _ _ (by norm_num)
  intro i _ hne
  unfold peakAt100
  rw [if_neg hne, if_pos rfl]
  norm_num

/-! ### Claim C4: all-zero activation -/

/-- C4: for the all-zero 360-bin activation vector the decoder is total (the
internal argmax still yields an index, so the `unwrap` cannot panic), the
weight sum is 0, the division propagates as a non-finite frequency
(`none`, the model of NaN), and the reported confidence is 0. -/
theorem C4_degenerate :
    (argmax zeroActivation 360).isSome = true
    ∧ weightSum zeroActivation = 0
    ∧ toLocalAverageCents zeroActivation = none
    ∧ (decodeActivation zeroActivation).frequency = none
    ∧ (decodeActivation zeroActivation).confidence = 0 := by
  have hws : weightSum zeroActivation = 0 := by
    simp [weightSum, zeroActivation]
  have hcents : toLocalAverageCents zeroActivation = none := by
    unfold toLocalAverageCents
    rw [argmax_zeroActivation]
    simp [hws]
  refine ⟨by rw [argmax_zeroActivation]; rfl, hws, hcents, ?_, ?_⟩
  · show (toLocalAverageCents zeroActivation).map centsToHz = none
    rw [hcents]
    rfl
  · show maxActivation zeroActivation = 0
    unfold maxActivation
    apply foldl_max_of_le
    intro y hy
    rcases List.mem_map.mp hy with ⟨i, _, rfl⟩
    exact le_refl _

/-! ### Claim C2: argmax tie-breaking -/

/-- C2 counterexample: for an activation vector with the maximum attained at
both index 0 and index 5, the decoder's argmax selects index 5 — the HIGHEST
tied index, not the lowest as the claim states — and the decoded cents value
reflects the window around 5 (bin 0 lies outside the window [1, 10)). -/
theorem C2_counterexample :
    tieActivation 0 = tieActivation 5
    ∧ (∀ i, i < 360 → tieActivation i ≤ tieActivation 0)
    ∧ argmax tieActivation 360 = some 5
    ∧ ¬argmax tieActivation 360 = some 0
    ∧ toLocalAverageCents tieActivation = some (centsMapping 5 / 2) := by
  refine ⟨rfl, ?_, argmax_tieActivation, ?_, ?_⟩
  · intro i _
    unfold tieActivation
    by_cases h0 : i = 0
    · simp [h0]
    · by_cases h5 : i = 5 <;> simp [h0, h5]
  · rw [argmax_tieActivation]
    simp
  · unfold toLocalAverageCents
    rw [argmax_tieActivation]
    show (if weightSum tieActivation = 0 then none
      else some (productSum tieActivation 5 / weightSum tieActivation)) =
      some (centsMapping 5 / 2)
    rw [weightSum_tieActivation, productSum_tieActivation,
      if_neg (by norm_num : ¬(2 : ℚ) = 0)]

/-- C2 (amended): on ties for the maximum, decode selects the HIGHEST such
index (the last occurrence in the left-to-right scan, per Rust's `max_by`),
deterministically: the chosen center is maximal and every later bin is
strictly smaller. -/
theorem C2_tie_break (a : ℕ → ℚ) (c : ℕ) (hc : argmax a 360 = some c) :
    c < 360 ∧ (∀ i, i < 360 → a i ≤ a c) ∧ ∀ i, c < i → i < 360 → a i < a c := by
  rcases argmax_cases a 360 with ⟨h0, _⟩ | ⟨j, hj, hjlt, hmax, hlast⟩
  · omega
  · rw [hj] at hc
    injection hc with h
    subst h
    exact ⟨hjlt, hmax, hlast⟩

/-- C2 witness: the amended tie-break theorem applied to the concrete tied
vector, whose argmax is index 5. -/
theorem C2_tie_break_witness :
    argmax tieActivation 360 = some 5
    ∧ (5 < 360 ∧ (∀ i, i < 360 → tieActivation i ≤ tieActivation 5)
        ∧ ∀ i, 5 < i → i < 360 → tieActivation i < tieActivation 5) :=
  ⟨argmax_tieActivation, C2_tie_break tieActivation 5 argmax_tieActivation⟩

/-! ### Claim C5: the local window -/

/-- C5: for every activation vector, the decoder's window around the argmax
center c is exactly [max(0, c−4), min(360, c+5)): the saturating start equals
max(0, c−4) over ℤ, the end is min(c+5, 360), the boundary centers 0 and 359
get windows [0,5) and [355,360), and every index in the window is inside
0..359 (no out-of-bounds access). -/
theorem C5_window (a : ℕ → ℚ) (c : ℕ) (hc : argmax a 360 = some c) :
    ((windowStart c : ℤ) = max 0 ((c : ℤ) - 4) ∧ windowEnd c = min (c + 5) 360)
    ∧ (c = 0 → windowStart c = 0 ∧ windowEnd c = 5)
    ∧ (c = 359 → windowStart c = 355 ∧ windowEnd c = 360)
    ∧ ∀ i ∈ Finset.Ico (windowStart c) (windowEnd c), i < 360 := by
  have hlt : c < 360 := argmax_lt a 360 c hc
  refine ⟨⟨?_, rfl⟩, ?_, ?_, ?_⟩
  · unfold windowStart
    rcases Nat.le_total 4 c with h | h
    · rw [Nat.cast_sub h, max_eq_right (by omega : (0 : ℤ) ≤ (c : ℤ) - 4)]
      norm_num
    · rw [Nat.sub_eq_zero_of_le h, max_eq_left (by omega : (c : ℤ) - 4 ≤ 0)]
      rfl
  · intro h
    subst h
    exact ⟨rfl, by decide⟩
  · intro h
    subst h
    exact ⟨rfl, by decide⟩
  · intro i hi
    rw [Finset.mem_Ico] at hi
    have h2 : windowEnd c ≤ 360 := min_le_right _ _
    omega

/-- C5 witness: the window theorem applied to a vector peaked at bin 0,
whose decoded center is 0 and window is [0, 5). -/
theorem C5_window_witness :
    argmax peakAt0 360 = some 0
    ∧ (((windowStart 0 : ℤ) = max 0 ((0 : ℤ) - 4) ∧ windowEnd 0 = min (0 + 5) 360)
      ∧ ((0 : ℕ) = 0 → windowStart 0 = 0 ∧ windowEnd 0 = 5)
      ∧ ((0 : ℕ) = 359 → windowStart 0 = 355 ∧ windowEnd 0 = 360)
      ∧ ∀ i ∈ Finset.Ico (windowStart 0) (windowEnd 0), i < 360) :=
  ⟨argmax_peakAt0, C5_window peakAt0 0 argmax_peakAt0⟩

/-! ### Claim C1: the decode formula -/

/-- Total activation mass of the single-bin vector at 100. -/
theorem weightSum_peakAt100 : weightSum peakAt100 = 1 := by
  unfold weightSum peakAt100
  rw [Finset.sum_ite_eq' (Finset.range 360) 100 (fun _ => (1 : ℚ))]
  simp

/-- C1: whenever the weight sum is nonzero (the finite-frequency case), decode
computes cents as (Σ activation·cents_mapping over the local window around the
argmax center) divided by (Σ activation over all 360 bins), and the frequency
is exactly 10·2^(cents/1200). -/
theorem C1_decode_formula (a : ℕ → ℚ) (c : ℕ) (hc : argmax a 360 = some c)
    (hws : weightSum a ≠ 0) :
    toLocalAverageCents a =
      some ((∑ i ∈ Finset.Ico (c - 4) (min (c + 5) 360), a i * centsMapping i) /
        ∑ i ∈ Finset.range 360, a i)
    ∧ (decodeActivation a).frequency =
      some (10 * (2 : ℝ) ^
        ((((∑ i ∈ Finset.Ico (c - 4) (min (c + 5) 360), a i * centsMapping i) /
          ∑ i ∈ Finset.range 360, a i : ℚ) : ℝ) / 1200)) := by
  have h1 : toLocalAverageCents a = some (productSum a c / weightSum a) := by
    unfold toLocalAverageCents
    rw [hc]
    show (if weightSum a = 0 then none else some (productSum a c / weightSum a)) = _
    rw [if_neg hws]
  constructor
  · exact h1
  · show (toLocalAverageCents a).map centsToHz = _
    rw [h1]
    rfl

/-- C1 witness: the decode formula applied to the single-bin vector at 100. -/
theorem C1_decode_formula_witness :
    argmax peakAt100 360 = some 100
    ∧ weightSum peakAt100 ≠ 0
    ∧ toLocalAverageCents peakAt100 =
        some ((∑ i ∈ Finset.Ico (100 - 4) (min (100 + 5) 360), peakAt100 i * centsMapping i) /
          ∑ i ∈ Finset.range 360, peakAt100 i)
    ∧ (decodeActivation peakAt100).frequency =
        some (10 * (2 : ℝ) ^
          ((((∑ i ∈ Finset.Ico (100 - 4) (min (100 + 5) 360), peakAt100 i * centsMapping i) /
            ∑ i ∈ Finset.range 360, peakAt100 i : ℚ) : ℝ) / 1200)) := by
  have hws : weightSum peakAt100 ≠ 0 := by
    rw [weightSum_peakAt100]
    norm_num
  exact ⟨argmax_peakAt100, hws,
    (C1_decode_formula peakAt100 100 argmax_peakAt100 hws).1,
    (C1_decode_formula peakAt100 100 argmax_peakAt100 hws).2⟩

/-! ### Claim C7: single nonzero bin decodes exactly -/

/-- C7: an activation vector whose only nonzero bin is a positive value at
index k decodes to exactly cents_mapping[k] cents: the windowed product sum
reduces to that single term, the weight sum to that single value, and the
frequency is exactly 10·2^(cents_mapping[k]/1200). -/
theorem C7_single_bin (a : ℕ → ℚ) (k : ℕ) (hk : k < 360) (hpos : 0 < a k)
    (hzero : ∀ i, i < 360 → i ≠ k → a i = 0) :
    toLocalAverageCents a = some (centsMapping k)
    ∧ (decodeActivation a).frequency =
      some (10 * (2 : ℝ) ^ (((centsMapping k : ℚ) : ℝ) / 1200)) := by
  have hargmax : argmax a 360 = some k := by
    apply argmax_eq_of_unique _ _ _ hk
    intro i hi hne
    rw [hzero i hi hne]
    exact hpos
  have hws : weightSum a = a k := by
    unfold weightSum
    apply Finset.sum_eq_single
    · intro b hb hbk
      exact hzero b (Finset.mem_range.mp hb) hbk
    · intro hnk
      exact absurd (Finset.mem_range.mpr hk) hnk
  have hwsne : weightSum a ≠ 0 := by
    rw [hws]
    exact ne_of_gt hpos
  have hps : productSum a k = a k * centsMapping k := by
    unfold productSum
    apply Finset.sum_eq_single
    · intro b hb hbk
      rw [Finset.mem_Ico] at hb
      have hb360 : b < 360 := by
        have h2 : windowEnd k ≤ 360 := min_le_right _ _
        omega
      rw [hzero b hb360 hbk, zero_mul]
    · intro hnk
      exfalso
      apply hnk
      rw [Finset.mem_Ico]
      refine ⟨?_, ?_⟩
      · unfold windowStart
        omega
      · unfold windowEnd
        omega
  have hcents : toLocalAverageCents a = some (centsMapping k) := by
    unfold toLocalAverageCents
    rw [hargmax]
    show (if weightSum a = 0 then none else some (productSum a k / weightSum a)) = _
    rw [if_neg hwsne, hps, hws, mul_div_cancel_left₀ _ (ne_of_gt hpos)]
  refine ⟨hcents, ?_⟩
  show (toLocalAverageCents a).map centsToHz = _
  rw [hcents]
  rfl

/-- C7 witness: the single-bin theorem applied to the vector with value 2 at
bin 7. -/
theorem C7_single_bin_witness :
    (0 : ℚ) < peakAt7 7
    ∧ (∀ i, i < 360 → i ≠ 7 → peakAt7 i = 0)
    ∧ toLocalAverageCents peakAt7 = some (centsMapping 7)
    ∧ (decodeActivation peakAt7).frequency =
        some (10 * (2 : ℝ) ^ (((centsMapping 7 : ℚ) : ℝ) / 1200)) := by
  have h1 : (0 : ℚ) < peakAt7 7 := by
    unfold peakAt7
    rw [if_pos rfl]
    norm_num
  have h2 : ∀ i, i < 360 → i ≠ 7 → peakAt7 i = 0 := by
    intro i _ hne
    unfold peakAt7
    rw [if_neg hne]
  exact ⟨h1, h2, (C7_single_bin peakAt7 7 (by norm_num) h1 h2).1,
    (C7_single_bin peakAt7 7 (by norm_num) h1 h2).2⟩

/-! ### Claim C3: frame assembly -/

/-- The two branches of the frame-assembly step: below the threshold the
buffer is kept and nothing is yielded; at or above it the buffer is cleared
and the most recent MIN_SAMPLES_PER_DISPLAY samples are yielded. -/
theorem pushSamples_spec (buf data : List ℤ) :
    ((buf ++ data).length < minSamplesPerDisplay →
      pushSamples buf data = (buf ++ data, none))
    ∧ (minSamplesPerDisplay ≤ (buf ++ data).length →
      pushSamples buf data =
        ([], some ((buf ++ data).drop ((buf ++ data).length - minSamplesPerDisplay)))) := by
  constructor
  · intro h
    unfold pushSamples
    rw [if_pos h]
  · intro h
    unfold pushSamples
    rw [if_neg (not_lt.mpr h)]

/-- C3 counterexample: pushing a single 1024-sample chunk into the empty
assembler leaves the buffer holding step_size samples (so the claim demands a
yield), yet NO frame is yielded and the buffer is not cleared: the code's
yield threshold is MIN_SAMPLES_PER_DISPLAY = 2048, not step_size = 1024. -/
theorem C3_counterexample :
    samplesPerStep ≤ (([] : List ℤ) ++ List.replicate 1024 (0 : ℤ)).length
    ∧ pushSamples [] (List.replicate 1024 (0 : ℤ)) =
      (List.replicate 1024 (0 : ℤ), none) := by
  have hlen : (([] : List ℤ) ++ List.replicate 1024 (0 : ℤ)).length = 1024 := by
    rw [List.nil_append, List.length_replicate]
  constructor
  · rw [hlen]
    norm_num [samplesPerStep]
  · have h := (pushSamples_spec [] (List.replicate 1024 (0 : ℤ))).1
      (by rw [hlen]; norm_num [minSamplesPerDisplay, stepsPerDisplay, samplesPerStep])
    rwa [List.nil_append] at h

/-- C3 (amended): a block is yielded only once the buffer holds at least
MIN_SAMPLES_PER_DISPLAY = steps_per_display · step_size = 2048 samples; then
exactly one block is yielded—the most recent 2048 samples, a suffix of the
buffered stream that is consumed downstream as two step_size analysis
frames—and the buffer is cleared.  With fewer than 2048 buffered samples
nothing is yielded and every buffered sample is retained. -/
theorem C3_push (buf data : List ℤ) :
    ((buf ++ data).length < minSamplesPerDisplay →
      pushSamples buf data = (buf ++ data, none))
    ∧ (minSamplesPerDisplay ≤ (buf ++ data).length →
      pushSamples buf data =
        ([], some ((buf ++ data).drop ((buf ++ data).length - minSamplesPerDisplay)))
      ∧ ((buf ++ data).drop ((buf ++ data).length - minSamplesPerDisplay)).length =
          minSamplesPerDisplay
      ∧ ∃ older,
          older ++ (buf ++ data).drop ((buf ++ data).length - minSamplesPerDisplay) =
            buf ++ data) := by
  constructor
  · intro h
    unfold pushSamples
    rw [if_pos h]
  · intro h
    refine ⟨?_, ?_,
      ⟨(buf ++ data).take ((buf ++ data).length - minSamplesPerDisplay),
        List.take_append_drop _ _⟩⟩
    · unfold pushSamples
      rw [if_neg (not_lt.mpr h)]
    · rw [List.length_drop]
      omega

/-- C3 witness: the amended assembler contract applied to one callback
delivering exactly 2048 samples into an empty buffer: exactly one block (the
whole chunk) is yielded and the buffer is cleared. -/
theorem C3_push_witness :
    minSamplesPerDisplay ≤ (([] : List ℤ) ++ List.replicate 2048 (0 : ℤ)).length
    ∧ (pushSamples [] (List.replicate 2048 (0 : ℤ)) =
        ([], some ((([] : List ℤ) ++ List.replicate 2048 (0 : ℤ)).drop
          ((([] : List ℤ) ++ List.replicate 2048 (0 : ℤ)).length - minSamplesPerDisplay)))
      ∧ ((([] : List ℤ) ++ List.replicate 2048 (0 : ℤ)).drop
          ((([] : List ℤ) ++ List.replicate 2048 (0 : ℤ)).length -
            minSamplesPerDisplay)).length = minSamplesPerDisplay
      ∧ ∃ older,
          older ++ (([] : List ℤ) ++ List.replicate 2048 (0 : ℤ)).drop
            ((([] : List ℤ) ++ List.replicate 2048 (0 : ℤ)).length - minSamplesPerDisplay) =
            ([] : List ℤ) ++ List.replicate 2048 (0 : ℤ)) := by
  have h : minSamplesPerDisplay ≤ (([] : List ℤ) ++ List.replicate 2048 (0 : ℤ)).length := by
    rw [List.nil_append, List.length_replicate]
    norm_num [minSamplesPerDisplay, stepsPerDisplay, samplesPerStep]
  exact ⟨h, (C3_push [] (List.replicate 2048 (0 : ℤ))).2 h⟩

/-! ### Claim C6: the feature normalizer -/

/-- Rewriting the replicated element without ever expanding the list. -/
theorem replicate_congr {α : Type} (n : ℕ) {x y : α} (h : x = y) :
    List.replicate n x = List.replicate n y := by
  rw [h]

/-- The mean of widened i16 samples stays within the i16 range. -/
theorem mean_bounds (l : List ℚ) (hne : l ≠ [])
    (hb : ∀ x ∈ l, -32768 ≤ x ∧ x ≤ 32767) :
    -32768 ≤ mean l ∧ mean l ≤ 32767 := by
  have hlen : 0 < (l.length : ℚ) := by
    have h := List.length_pos.mpr hne
    exact_mod_cast h
  have hub : l.sum ≤ (l.length : ℚ) * 32767 := by
    have h := List.sum_le_card_nsmul l 32767 (fun x hx => (hb x hx).2)
    rwa [nsmul_eq_mul] at h
  have hlb : (l.length : ℚ) * (-32768) ≤ l.sum := by
    have h := List.card_nsmul_le_sum l (-32768) (fun x hx => (hb x hx).1)
    rwa [nsmul_eq_mul] at h
  constructor
  · rw [mean, le_div_iff₀ hlen]
    linarith
  · rw [mean, div_le_iff₀ hlen]
    linarith

/-- The population variance of widened i16 samples is nonnegative and at most
65535², since every sample is within 65535 of the mean. -/
theorem variance_le (l : List ℚ) (hne : l ≠ [])
    (hb : ∀ x ∈ l, -32768 ≤ x ∧ x ≤ 32767) :
    0 ≤ variance l ∧ variance l ≤ 65535 * 65535 := by
  have hmean := mean_bounds l hne hb
  have hlen : 0 < (l.length : ℚ) := by
    have h := List.length_pos.mpr hne
    exact_mod_cast h
  have hterm : ∀ y ∈ l.map (fun x => (mean l - x) * (mean l - x)),
      y ≤ 65535 * 65535 := by
    intro y hy
    rcases List.mem_map.mp hy with ⟨x, hx, rfl⟩
    have h1 : mean l - x ≤ 65535 := by
      have h := (hb x hx).1
      linarith [hmean.2]
    have h2 : -(65535 : ℚ) ≤ mean l - x := by
      have h := (hb x hx).2
      linarith [hmean.1]
    calc (mean l - x) * (mean l - x) = |mean l - x| * |mean l - x| :=
          (abs_mul_abs_self _).symm
      _ ≤ 65535 * 65535 := by
          apply mul_self_le_mul_self (abs_nonneg _)
          rw [abs_le]
          exact ⟨h2, h1⟩
  have hsum := List.sum_le_card_nsmul
    (l.map (fun x => (mean l - x) * (mean l - x))) (65535 * 65535) hterm
  rw [List.length_map, nsmul_eq_mul] at hsum
  constructor
  · rw [variance]
    apply div_nonneg
    · apply List.sum_nonneg
      intro y hy
      rcases List.mem_map.mp hy with ⟨x, _, rfl⟩
      exact mul_self_nonneg _
    · exact le_of_lt hlen
  · rw [variance, div_le_iff₀ hlen]
    linarith

/-- The population standard deviation of widened i16 samples is at most 65535
(in particular far below f32::MAX, so the upper clamp never bites). -/
theorem std_le (l : List ℚ) (hne : l ≠ [])
    (hb : ∀ x ∈ l, -32768 ≤ x ∧ x ≤ 32767) :
    std l ≤ 65535 := by
  have hv := variance_le l hne hb
  have hcast : ((variance l : ℚ) : ℝ) ≤ (65535 : ℝ) ^ 2 := by
    have h : variance l ≤ 65535 ^ 2 := by
      rw [pow_two]
      exact hv.2
    exact_mod_cast h
  calc std l = Real.sqrt ((variance l : ℚ) : ℝ) := rfl
    _ ≤ Real.sqrt ((65535 : ℝ) ^ 2) := Real.sqrt_le_sqrt hcast
    _ = 65535 := Real.sqrt_sq (by norm_num)

/-- C6: for every 1024-sample frame of i16 samples, the normalizer divides by
clamp(σ, 1e-8, f32::MAX) which here equals max(σ, 1e-8) — the claim's
clamp(σ, 1e-8, +∞), since σ ≤ 65535 < f32::MAX — a divisor at least 1e-8 > 0,
so each output is exactly (sample − μ)/max(σ, 1e-8) and the function is total;
on the all-zero frame the output is the all-zero vector (no NaN/Inf). -/
theorem C6_normalizer (frame : List ℤ) (hlen : frame.length = 1024)
    (hb : ∀ x ∈ frame, (-32768 : ℤ) ≤ x ∧ x ≤ 32767) :
    clippedStd (audioOf frame) = max (std (audioOf frame)) 1e-8
    ∧ (1e-8 : ℝ) ≤ clippedStd (audioOf frame)
    ∧ normalizedAudio frame = (audioOf frame).map
        (fun x : ℚ => ((x : ℝ) - ((mean (audioOf frame) : ℚ) : ℝ)) /
          max (std (audioOf frame)) 1e-8)
    ∧ (frame = List.replicate 1024 0 →
        normalizedAudio frame = List.replicate 1024 (0 : ℝ)) := by
  have hne : audioOf frame ≠ [] := by
    unfold audioOf
    intro hcontra
    have h := congrArg List.length hcontra
    rw [List.length_map, hlen] at h
    simp at h
  have hbq : ∀ x ∈ audioOf frame, (-32768 : ℚ) ≤ x ∧ x ≤ 32767 := by
    intro x hx
    rcases List.mem_map.mp hx with ⟨y, hy, rfl⟩
    have h := hb y hy
    constructor
    · exact_mod_cast h.1
    · exact_mod_cast h.2
  have hstd := std_le (audioOf frame) hne hbq
  have hfm : (65535 : ℝ) ≤ ((f32Max : ℚ) : ℝ) := by
    have h : (65535 : ℚ) ≤ f32Max := by norm_num [f32Max]
    exact_mod_cast h
  have hmax : max (std (audioOf frame)) 1e-8 ≤ ((f32Max : ℚ) : ℝ) := by
    apply max_le
    · exact le_trans hstd hfm
    · apply le_trans ?_ hfm
      norm_num
  have hclip : clippedStd (audioOf frame) = max (std (audioOf frame)) 1e-8 :=
    min_eq_left hmax
  refine ⟨hclip, ?_, ?_, ?_⟩
  · rw [hclip]
    exact le_max_right _ _
  · unfold normalizedAudio
    rw [hclip]
  · intro hz
    subst hz
    have ha : audioOf (List.replicate 1024 (0 : ℤ)) = List.replicate 1024 (0 : ℚ) := by
      unfold audioOf
      rw [List.map_replicate, Int.cast_zero]
    have hm : mean (List.replicate 1024 (0 : ℚ)) = 0 := by
      rw [mean, List.sum_replicate, smul_zero, zero_div]
    have hv : variance (List.replicate 1024 (0 : ℚ)) = 0 := by
      have hmap : (List.replicate 1024 (0 : ℚ)).map
          (fun x => (mean (List.replicate 1024 (0 : ℚ)) - x) *
            (mean (List.replicate 1024 (0 : ℚ)) - x)) = List.replicate 1024 (0 : ℚ) := by
        rw [List.map_replicate]
        exact replicate_congr 1024 (by rw [hm]; norm_num)
      rw [variance, hmap, List.sum_replicate, smul_zero, zero_div]
    have hs : std (List.replicate 1024 (0 : ℚ)) = 0 := by
      rw [std, hv, Rat.cast_zero, Real.sqrt_zero]
    have hc : clippedStd (List.replicate 1024 (0 : ℚ)) = 1e-8 := by
      rw [clippedStd, hs, max_eq_right (by norm_num : (0 : ℝ) ≤ 1e-8)]
      apply min_eq_left
      exact le_trans (by norm_num) hfm
    unfold normalizedAudio
    rw [ha, List.map_replicate]
    exact replicate_congr 1024 (by rw [hm, hc]; norm_num)

/-- C6 witness: the normalizer theorem applied to the all-zero (silent) frame,
whose normalized output is the all-zero feature vector. -/
theorem C6_normalizer_witness :
    (List.replicate 1024 (0 : ℤ)).length = 1024
    ∧ (∀ x ∈ List.replicate 1024 (0 : ℤ), (-32768 : ℤ) ≤ x ∧ x ≤ 32767)
    ∧ normalizedAudio (List.replicate 1024 (0 : ℤ)) = List.replicate 1024 (0 : ℝ) := by
  have h1 : (List.replicate 1024 (0 : ℤ)).length = 1024 := List.length_replicate _ _
  have h2 : ∀ x ∈ List.replicate 1024 (0 : ℤ), (-32768 : ℤ) ≤ x ∧ x ≤ 32767 := by
    intro x hx
    rw [List.eq_of_mem_replicate hx]
    norm_num
  exact ⟨h1, h2, (C6_normalizer (List.replicate 1024 0) h1 h2).2.2.2 rfl⟩

/-! ### Claim C8: multi-frame averaging -/

/-- The two concrete predictions of the averaging scenario both pass the
default acceptance policy. -/
theorem accept_scenario :
    acceptPrediction defaultSettings ⟨some 200, 1⟩ = true
    ∧ acceptPrediction defaultSettings ⟨some 220, 1⟩ = true := by
  constructor <;>
    · simp only [acceptPrediction, defaultSettings, Bool.and_eq_true, decide_eq_true_eq]
      norm_num

/-- C8: each display tick aggregates N = STEPS_PER_DISPLAY per-frame
predictions: a prediction survives exactly when its confidence reaches the
threshold and its frequency lies inside the accepted interval (a NaN frequency
never survives); the emitted value is the arithmetic mean of the surviving
frequencies, or NaN (`none`) when none survive; a callback handling a full
2048-sample block appends exactly one PitchPoint carrying that value; and two
surviving predictions at 200 Hz and 220 Hz emit 210 Hz. -/
theorem C8_averaging (s : Settings) (preds : List PredQ)
    (_hn : preds.length = stepsPerDisplay) :
    (∀ p ∈ preds, (acceptPrediction s p = true ↔
      ∃ f, p.frequency = some f ∧ s.confidenceThreshold ≤ p.confidence
        ∧ (s.displayRange.1 : ℚ) ≤ f ∧ f ≤ (s.displayRange.2 : ℚ)))
    ∧ (survivingFrequencies s preds = [] → averagePitch s preds = none)
    ∧ (∀ fs, survivingFrequencies s preds = fs → fs ≠ [] →
        averagePitch s preds = some (fs.sum / (fs.length : ℚ)))
    ∧ (∀ predict st instant data, st.recentAudio = [] →
        data.length = minSamplesPerDisplay →
        (chunksExact samplesPerStep data).map predict = preds →
        (audioCallback predict s st instant data).pitchPoints =
          st.pitchPoints ++
            [(instant - st.firstAudioInstant.getD instant, averagePitch s preds)])
    ∧ averagePitch defaultSettings [⟨some 200, 1⟩, ⟨some 220, 1⟩] = some 210 := by
  refine ⟨?_, ?_, ?_, ?_, ?_⟩
  · intro p _
    cases hf : p.frequency with
    | none =>
        simp [acceptPrediction, hf]
    | some f =>
        simp only [acceptPrediction, hf, Bool.and_eq_true, decide_eq_true_eq,
          Option.some.injEq]
        constructor
        · rintro ⟨⟨h1, h2⟩, h3⟩
          exact ⟨f, rfl, h1, h2, h3⟩
        · rintro ⟨f', hf', h1, h2, h3⟩
          subst hf'
          exact ⟨⟨h1, h2⟩, h3⟩
  · intro h
    simp [averagePitch, h]
  · intro fs hfs hne
    simp [averagePitch, hfs, hne]
  · intro predict st instant data hbuf hlen hpr
    have hpush : pushSamples st.recentAudio data = ([], some data) := by
      unfold pushSamples
      rw [hbuf, List.nil_append]
      rw [if_neg (by omega : ¬data.length < minSamplesPerDisplay)]
      rw [hlen, Nat.sub_self, List.drop_zero]
    unfold audioCallback
    rw [hpush]
    show st.pitchPoints ++
        [(instant - st.firstAudioInstant.getD instant,
          averagePitch s ((chunksExact samplesPerStep data).map predict))] = _
    rw [hpr]
  · have hacc := accept_scenario
    have hsf : survivingFrequencies defaultSettings
        [⟨some 200, 1⟩, ⟨some 220, 1⟩] = [200, 220] := by
      unfold survivingFrequencies
      rw [List.filter_cons_of_pos (by exact hacc.1),
        List.filter_cons_of_pos (by exact hacc.2), List.filter_nil]
      rfl
    rw [averagePitch, hsf]
    norm_num
    intro h
    exact absurd h (List.cons_ne_nil _ _)

/-- C8 witness: the averaging theorem at the two-prediction group of the
200 Hz / 220 Hz scenario, whose emitted PitchPoint value is 210 Hz. -/
theorem C8_averaging_witness :
    ([(⟨some 200, 1⟩ : PredQ), ⟨some 220, 1⟩] : List PredQ).length = stepsPerDisplay
    ∧ averagePitch defaultSettings [⟨some 200, 1⟩, ⟨some 220, 1⟩] = some 210 :=
  ⟨rfl, (C8_averaging defaultSettings [⟨some 200, 1⟩, ⟨some 220, 1⟩] rfl).2.2.2.2⟩

/-! ### Claim C9: session state across connect/disconnect -/

/-- The callback always stores back `firstAudioInstant.getD instant`: it
latches the current instant on the first callback and keeps the previously
stored clock on every later one, in both the buffering and yielding branches. -/
theorem audioCallback_firstInstant (predict : List ℤ → PredQ) (s : Settings)
    (st : AudioState) (instant : ℕ) (data : List ℤ) :
    (audioCallback predict s st instant data).firstAudioInstant =
      some (st.firstAudioInstant.getD instant) := by
  unfold audioCallback
  cases h : pushSamples st.recentAudio data with
  | mk buf2 yielded => cases yielded <;> rfl

/-- C9 counterexample: disconnecting the device (and then reselecting one)
does NOT clear the session state: the StreamClock stays latched at 7 and the
residual buffer keeps its three samples into the next session, contradicting
the claimed clearing on teardown. -/
theorem C9_counterexample :
    (disconnectAudio preDisconnectApp).hasStream = false
    ∧ (disconnectAudio preDisconnectApp).audioState.firstAudioInstant = some 7
    ∧ (disconnectAudio preDisconnectApp).audioState.recentAudio = [1, 2, 3]
    ∧ (connectDevice (disconnectAudio preDisconnectApp) 1 true).audioState.firstAudioInstant =
        some 7
    ∧ (connectDevice (disconnectAudio preDisconnectApp) 1 true).audioState.recentAudio =
        [1, 2, 3] :=
  ⟨rfl, rfl, rfl, rfl, rfl⟩

/-- C9 (amended): the StreamClock is latched by the first callback that finds
it unset and is never changed by later callbacks; but device disconnect and
reselection do NOT clear the StreamClock or the residual buffer — the whole
audio session state persists unchanged into the next session. -/
theorem C9_session_state (predict : List ℤ → PredQ) (s : Settings) (st : AudioState)
    (instant : ℕ) (data : List ℤ) (app : AppState) :
    (st.firstAudioInstant = none →
      (audioCallback predict s st instant data).firstAudioInstant = some instant)
    ∧ (∀ t, st.firstAudioInstant = some t →
      (audioCallback predict s st instant data).firstAudioInstant = some t)
    ∧ (disconnectAudio app).audioState = app.audioState
    ∧ ∀ i ok, (connectDevice app i ok).audioState = app.audioState := by
  refine ⟨?_, ?_, rfl, ?_⟩
  · intro h
    rw [audioCallback_firstInstant, h]
    rfl
  · intro t h
    rw [audioCallback_firstInstant, h]
    rfl
  · intro i ok
    unfold connectDevice
    cases ok <;> rfl

/-- C9 witness: the session-state theorem at concrete inputs — a fresh state
latches instant 5; a state already latched at 7 keeps 7; disconnect leaves the
audio state untouched. -/
theorem C9_session_state_witness :
    (audioCallback predictW defaultSettings stW 5 [1]).firstAudioInstant = some 5
    ∧ (audioCallback predictW defaultSettings
        (disconnectAudio preDisconnectApp).audioState 9 [1]).firstAudioInstant = some 7
    ∧ (disconnectAudio preDisconnectApp).audioState = preDisconnectApp.audioState := by
  refine ⟨?_, ?_, ?_⟩
  · exact (C9_session_state predictW defaultSettings stW 5 [1] preDisconnectApp).1 rfl
  · exact (C9_session_state predictW defaultSettings
      (disconnectAudio preDisconnectApp).audioState 9 [1] preDisconnectApp).2.1 7 rfl
  · exact (C9_session_state predictW defaultSettings stW 9 [1] preDisconnectApp).2.2.1

/-! ### Claim C10: range repair invariant -/

/-- The repair on a slider-range pair always restores lower < upper when the
lower bound is within the lower slider's range (so the u32 increment cannot
wrap). -/
theorem repairRange_lt (r : ℕ × ℕ) (h : r.1 ≤ 499) :
    (repairRange r).1 < (repairRange r).2 := by
  unfold repairRange
  by_cases hc : r.2 ≤ r.1
  · rw [if_pos hc]
    show r.1 < (r.1 + 1) % 2 ^ 32
    rw [Nat.mod_eq_of_lt (by omega)]
    omega
  · rw [if_neg hc]
    omega

/-- C10: after every settings-window interaction, both the display range and
the target range satisfy lower < upper: a changed range with lower ≥ upper is
immediately rewritten to (lower, lower+1) — given that edited lower bounds
stay within the lower slider's 0..=499 range and unedited ranges were already
valid — and the default settings are valid to begin with. -/
theorem C10_range_repair (dch tch : Bool) (s : Settings)
    (hd1 : s.displayRange.1 ≤ 499) (ht1 : s.targetRange.1 ≤ 499)
    (hd2 : dch = false → s.displayRange.1 < s.displayRange.2)
    (ht2 : tch = false → s.targetRange.1 < s.targetRange.2) :
    ((settingsInteraction dch tch s).displayRange.1 <
        (settingsInteraction dch tch s).displayRange.2
      ∧ (settingsInteraction dch tch s).targetRange.1 <
        (settingsInteraction dch tch s).targetRange.2)
    ∧ defaultSettings.displayRange.1 < defaultSettings.displayRange.2
    ∧ defaultSettings.targetRange.1 < defaultSettings.targetRange.2 := by
  refine ⟨⟨?_, ?_⟩, by norm_num [defaultSettings], by norm_num [defaultSettings]⟩
  · have hproj : (settingsInteraction dch tch s).displayRange =
        if dch then repairRange s.displayRange else s.displayRange := rfl
    rw [hproj]
    cases dch with
    | true => simpa using repairRange_lt s.displayRange hd1
    | false => simpa using hd2 rfl
  · have hproj : (settingsInteraction dch tch s).targetRange =
        if tch then repairRange s.targetRange else s.targetRange := rfl
    rw [hproj]
    cases tch with
    | true => simpa using repairRange_lt s.targetRange ht1
    | false => simpa using ht2 rfl

/-- C10 witness: the repair theorem applied to settings whose two ranges are
both inverted and marked changed: the interaction restores lower < upper. -/
theorem C10_range_repair_witness :
    badSettings.displayRange.1 ≤ 499 ∧ badSettings.targetRange.1 ≤ 499
    ∧ (((settingsInteraction true true badSettings).displayRange.1 <
          (settingsInteraction true true badSettings).displayRange.2
        ∧ (settingsInteraction true true badSettings).targetRange.1 <
          (settingsInteraction true true badSettings).targetRange.2)
      ∧ defaultSettings.displayRange.1 < defaultSettings.displayRange.2
      ∧ defaultSettings.targetRange.1 < defaultSettings.targetRange.2) := by
  refine ⟨by norm_num [badSettings], by norm_num [badSettings], ?_⟩
  exact C10_range_repair true true badSettings (by norm_num [badSettings])
    (by norm_num [badSettings]) (fun h => nomatch h) (fun h => nomatch h)

end PitchOverlay
